import Mathlib

/-!
Shallow embedding of the AGILE3D point-cloud converter's transform-and-validate
core (`src/tools/converter/transforms/downsample.py`,
`src/tools/converter/transforms/quantize.py`, and the frame-ordering validator),
with theorems settling the frozen claims about it.

Numeric conventions: float32/float64 values are embedded as exact rationals
(`ℚ`); machine integer casts (`astype(np.int16)`, `astype(np.uint16)`) are
modelled by explicit truncation toward zero followed by wrapping modulo `2^16`;
float16 is modelled by exact round-to-nearest-even onto the IEEE half-precision
grid, with overflow to an explicit infinity constructor.
-/

/-- A 2-d numpy array of floats, embedded as exact rationals: `w` is
`shape[1]` (the point width, kept explicitly so that the empty array still has
a width) and `rows` the list of points. -/
structure Mat where
  w : Nat
  rows : List (List ℚ)
deriving Repr, DecidableEq

/-- Well-formedness (rectangularity): every row has length `w`.  A numpy
array of shape `(N, w)` satisfies this by construction. -/
def Mat.WF (A : Mat) : Prop := ∀ r ∈ A.rows, r.length = A.w

instance (A : Mat) : Decidable A.WF := List.decidableBAll _ A.rows

/-- Shape `(N, w)` of the array, as numpy's `shape`. -/
def Mat.shape (A : Mat) : Nat × Nat := (A.rows.length, A.w)

/-- Tier table of `downsample_points` (`tier_map` in the source):
`'100k' -> 100000`, `'50k' -> 50000`, anything else unrecognized. -/
def tierMap (t : String) : Option Nat :=
  if t = "100k" then some 100000
  else if t = "50k" then some 50000
  else none

/-- One step of a 64-bit linear congruential generator (Knuth's MMIX
constants).  This stands in for the PCG64 bit stream of
`np.random.default_rng(seed)`: the exact stream is irrelevant to every claim,
only that it is a pure function of the seed. -/
def lcg (s : Nat) : Nat := (6364136223846793005 * s + 1442695040888963407) % 2 ^ 64

/-- Selection-sampling model of `rng.choice(n, size=k, replace=False)`:
walking positions `i, i+1, ...` through `m` remaining positions with `r` still
to pick, position `i` is selected iff the next pseudo-random draw modulo the
number of remaining positions falls below `r`.  For `r ≤ m` this returns
exactly `r` distinct indices, strictly increasing, each in `[i, i+m)` —
the contract numpy guarantees for choice without replacement (deterministic
in the seed). -/
def sampleIdx : Nat → Nat → Nat → Nat → List Nat
  | 0, _, _, _ => []
  | m + 1, r, i, s =>
    if lcg s % (m + 1) < r then i :: sampleIdx m (r - 1) (i + 1) (lcg s)
    else sampleIdx m r (i + 1) (lcg s)

/-- Model of `np.random.default_rng(seed).choice(n, size=k, replace=False)`. -/
def npChoiceNoReplace (seed n k : Nat) : List Nat := sampleIdx n k 0 seed

/-- Metadata dict returned by `downsample_points`.  `reason` is present only
on the `method = 'none'` branch, `tolerance_pct` only on the sampling
branch, mirroring the two dict literals in the source. -/
structure DMeta where
  method : String
  target_tier : String
  target_count : Nat
  original_count : Nat
  final_count : Nat
  reduction_ratio : ℚ
  within_spec : Bool
  reason : Option String
  tolerance_pct : Option ℚ
deriving Repr, DecidableEq

/-- `downsample_points(points, target_tier, seed)` from
`src/tools/converter/transforms/downsample.py`: validates the tier and the
shape, returns the input unchanged when `N ≤ target`, otherwise samples
exactly `target` indices without replacement, sorts them ascending and
materializes the selected rows. -/
def downsample_points (A : Mat) (target_tier : String) (seed : Nat) :
    Except String (Mat × DMeta) :=
  match tierMap target_tier with
  | none => .error ("Invalid tier: " ++ target_tier ++ ". Choose from 100k, 50k")
  | some target_count =>
    if A.w < 3 then .error "Points must be (N, 3+) array"
    else
      let original_count := A.rows.length
      if original_count ≤ target_count then
        .ok (A,
          { method := "none", target_tier := target_tier, target_count := target_count,
            original_count := original_count, final_count := original_count,
            reduction_ratio := 1, within_spec := true,
            reason := some "original_count <= target_count", tolerance_pct := none })
      else
        let indices := List.insertionSort (· ≤ ·)
          (npChoiceNoReplace seed original_count target_count)
        let downsampled := indices.filterMap (fun i => A.rows[i]?)
        let final_count := downsampled.length
        let tolerance : ℚ := (1 / 100) * target_count
        let ws := decide (|(final_count : ℚ) - target_count| ≤ tolerance)
        .ok ({ w := A.w, rows := downsampled },
          { method := "random", target_tier := target_tier, target_count := target_count,
            original_count := original_count, final_count := final_count,
            reduction_ratio := (final_count : ℚ) / original_count,
            within_spec := ws, reason := none, tolerance_pct := some 1 })

/-- `get_target_count(tier)` from the source: the tier table or an error. -/
def get_target_count (tier : String) : Except String Nat :=
  match tierMap tier with
  | none => .error ("Invalid tier: " ++ tier ++ ". Choose from 100k, 50k")
  | some n => .ok n

/-! ### Machine-number helpers for the quantizer -/

/-- Truncation toward zero, the C / numpy float→integer cast. -/
def truncQ (q : ℚ) : ℤ := if 0 ≤ q then ⌊q⌋ else ⌈q⌉

/-- Wrapping of an integer into the `int16` range, as `astype(np.int16)`. -/
def wrapInt16 (z : ℤ) : ℤ := (z + 32768) % 65536 - 32768

/-- Round to nearest integer, ties to even (IEEE default rounding). -/
def rne (x : ℚ) : ℤ :=
  if x - ⌊x⌋ < 1 / 2 then ⌊x⌋
  else if 1 / 2 < x - ⌊x⌋ then ⌊x⌋ + 1
  else if ⌊x⌋ % 2 = 0 then ⌊x⌋ else ⌊x⌋ + 1

/-- Exponent of the IEEE half-precision ulp at magnitude `|q|`: the mantissa
step is `2^(e-10)` for normal numbers `2^e ≤ |q| < 2^(e+1)` and `2^(-24)` in
the subnormal range. -/
def fp16UlpExp (q : ℚ) : ℤ := max (Int.log 2 |q|) (-14) - 10

/-- Value of `q` rounded to the IEEE half-precision grid (before the overflow
check): round to the nearest multiple of the ulp, ties to even. -/
def fp16RoundVal (q : ℚ) : ℚ :=
  (rne (q / 2 ^ fp16UlpExp q) : ℚ) * 2 ^ fp16UlpExp q

/-- A float16 datum: a finite representable value, or an infinity produced by
overflow (magnitudes rounding beyond the maximum finite value 65504). -/
inductive Fp16 where
  | finite (val : ℚ)
  | inf (neg : Bool)
deriving Repr, DecidableEq

/-- `astype(np.float16)` on one float32 value: round to the half-precision
grid, overflowing to infinity beyond ±65504 — silently, as the hardware
cast does. -/
def fp16OfRat (q : ℚ) : Fp16 :=
  if 65504 < |fp16RoundVal q| then .inf (decide (q < 0))
  else .finite (fp16RoundVal q)

/-- `astype(np.float32)` on one float16 value: exact for finite values; an
infinity has no image in the rational embedding. -/
def Fp16.toF32 : Fp16 → Option ℚ
  | .finite v => some v
  | .inf _ => none

/-! ### Quantizer (`src/tools/converter/transforms/quantize.py`) -/

/-- The metadata dict returned by the quantizers (the QuantizationEnvelope):
optional fields are present only in the modes whose dict literals carry them. -/
structure QMeta where
  mode : String
  dtype : String
  bytes_per_point : Nat
  compression : ℚ
  precision_loss_pct : Option ℚ
  suitable_range : Option String
  bbox_min : Option (List ℚ)
  bbox_max : Option (List ℚ)
  intensity_scale : Option Nat
  precision_mm : Option ℚ
deriving Repr, DecidableEq

/-- A quantized array: float32 passthrough, a float16 array, a plain `int16`
array of xyz triples, or the structured `int16 x/y/z + uint16 intensity`
record array. -/
inductive QPoints where
  | raw (A : Mat)
  | half (w : Nat) (rows : List (List Fp16))
  | i16x (rows : List (ℤ × ℤ × ℤ))
  | i16xi (rows : List (ℤ × ℤ × ℤ × ℕ))
deriving Repr, DecidableEq

/-- `quantize_off(points)`: identity, float32 envelope. -/
def quantize_off (A : Mat) : QPoints × QMeta :=
  (.raw A,
   { mode := "off", dtype := "float32", bytes_per_point := 16, compression := 1,
     precision_loss_pct := none, suitable_range := none, bbox_min := none,
     bbox_max := none, intensity_scale := none, precision_mm := none })

/-- `quantize_fp16(points)`: elementwise cast to float16; the envelope is a
constant independent of the input. -/
def quantize_fp16 (A : Mat) : QPoints × QMeta :=
  (.half A.w (A.rows.map (List.map fp16OfRat)),
   { mode := "fp16", dtype := "float16", bytes_per_point := 8, compression := 1 / 2,
     precision_loss_pct := some (1 / 10),
     suitable_range := some "[-65504, 65504] (meters)",
     bbox_min := none, bbox_max := none, intensity_scale := none,
     precision_mm := none })

/-- Minimum of spatial column `j` over all rows (`xyz.min(axis=0)`). -/
def colMin (r0 : List ℚ) (rest : List (List ℚ)) (j : Nat) : ℚ :=
  (rest.map (fun r => r.getD j 0)).foldl min (r0.getD j 0)

/-- Maximum of spatial column `j` over all rows (`xyz.max(axis=0)`). -/
def colMax (r0 : List ℚ) (rest : List (List ℚ)) (j : Nat) : ℚ :=
  (rest.map (fun r => r.getD j 0)).foldl max (r0.getD j 0)

/-- `bbox_range[bbox_range == 0] = 1.0`: a zero axis extent is replaced by
unit extent before dividing. -/
def sanE (e : ℚ) : ℚ := if e = 0 then 1 else e

/-- One spatial coordinate quantized to `int16`: normalize to `[-1, 1]`
against the (sanitized) bbox, scale by 32767, truncate and cast. -/
def q16 (mn rng v : ℚ) : ℤ := wrapInt16 (truncQ ((2 * (v - mn) / rng - 1) * 32767))

/-- One intensity value quantized to `uint16`:
`(v * 65535).clip(0, 65535).astype(np.uint16)`. -/
def qu16 (v : ℚ) : ℕ := ((truncQ (min (max (v * 65535) 0) 65535)) % 65536).toNat

/-- `quantize_int16(points)`: width check, per-cloud AABB over the spatial
columns with zero extents replaced by unit extents, normalization to `[-1,1]`
scaled to `int16`, optional intensity scaled to `uint16`, and the envelope
carrying the bbox. An empty cloud makes the numpy axis reduction raise. -/
def quantize_int16 (A : Mat) : Except String (QPoints × QMeta) :=
  if A.w < 3 then
    .error "int16 quantization requires at least 3 spatial coords (x, y, z)"
  else
    match A.rows with
    | [] => .error "zero-size array to reduction operation minimum which has no identity"
    | r0 :: rest =>
      let mnx := colMin r0 rest 0
      let mny := colMin r0 rest 1
      let mnz := colMin r0 rest 2
      let mxx := colMax r0 rest 0
      let mxy := colMax r0 rest 1
      let mxz := colMax r0 rest 2
      let rngx := sanE (mxx - mnx)
      let rngy := sanE (mxy - mny)
      let rngz := sanE (mxz - mnz)
      let has_intensity := 3 < A.w
      let meta : QMeta :=
        { mode := "int16",
          dtype := if has_intensity then "int16 (xyz) + uint16 (intensity)" else "int16",
          bytes_per_point := if has_intensity then 8 else 6,
          compression := 1 / 2,
          precision_loss_pct := none, suitable_range := none,
          bbox_min := some [mnx, mny, mnz], bbox_max := some [mxx, mxy, mxz],
          intensity_scale := if has_intensity then some 65535 else none,
          precision_mm := some (max rngx (max rngy rngz) / 32767 * 1000) }
      if has_intensity then
        .ok (.i16xi ((r0 :: rest).map (fun r =>
          (q16 mnx rngx (r.getD 0 0), q16 mny rngy (r.getD 1 0),
           q16 mnz rngz (r.getD 2 0), qu16 (r.getD 3 0)))), meta)
      else
        .ok (.i16x ((r0 :: rest).map (fun r =>
          (q16 mnx rngx (r.getD 0 0), q16 mny rngy (r.getD 1 0),
           q16 mnz rngz (r.getD 2 0)))), meta)

/-- `quantize_points(points, mode)`: mode validation and dispatch. -/
def quantize_points (A : Mat) (mode : String) : Except String (QPoints × QMeta) :=
  if mode = "off" then .ok (quantize_off A)
  else if mode = "fp16" then .ok (quantize_fp16 A)
  else if mode = "int16" then quantize_int16 A
  else .error ("Invalid quantization mode: " ++ mode ++ ". Choose from off, fp16, int16")

/-- `quantized.astype(np.float32)` for the modes that just widen back. -/
def deqF32 : QPoints → Except String Mat
  | .raw A => .ok A
  | .half w rows =>
    match rows.mapM (List.mapM Fp16.toF32) with
    | some rs => .ok ⟨w, rs⟩
    | none => .error "non-finite float16 value outside the rational embedding"
  | .i16x rows => .ok ⟨3, rows.map (fun p => [(p.1 : ℚ), (p.2.1 : ℚ), (p.2.2 : ℚ)])⟩
  | .i16xi rows => .ok ⟨4, rows.map (fun p =>
      [(p.1 : ℚ), (p.2.1 : ℚ), (p.2.2.1 : ℚ), (p.2.2.2 : ℚ)])⟩

/-- One spatial coordinate dequantized: `int16` value back through `[-1,1]`
to the bbox interval. -/
def dq16 (mn rng : ℚ) (z : ℤ) : ℚ := ((z : ℚ) / 32767 + 1) / 2 * rng + mn

/-- `dequantize_points(quantized, metadata)`: inverts each mode using only the
envelope; `int16` re-reads the bbox from the metadata (missing fields raise)
and re-sanitizes the ranges; unknown modes raise. -/
def dequantize_points (q : QPoints) (m : QMeta) : Except String Mat :=
  if m.mode = "off" then deqF32 q
  else if m.mode = "fp16" then deqF32 q
  else if m.mode = "int16" then
    match m.bbox_min, m.bbox_max with
    | some [a, b, c], some [d, e, f] =>
      let rngx := sanE (d - a)
      let rngy := sanE (e - b)
      let rngz := sanE (f - c)
      match q with
      | .i16xi rows => .ok ⟨4, rows.map (fun p =>
          [dq16 a rngx p.1, dq16 b rngy p.2.1, dq16 c rngz p.2.2.1,
           (p.2.2.2 : ℚ) / 65535])⟩
      | .i16x rows => .ok ⟨3, rows.map (fun p =>
          [dq16 a rngx p.1, dq16 b rngy p.2.1, dq16 c rngz p.2.2])⟩
      | _ => .error "int16 dequantization of a float array is outside the embedding"
    | _, _ => .error "KeyError: bbox_min or bbox_max missing from metadata"
  else .error ("Unknown quantization mode: " ++ m.mode)

/-- The error-statistics dict of `compute_quantization_error`.  `msq` is the
mean squared error: the source's `rmse` equals `Real.sqrt msq`, kept squared
here so the record stays rational. -/
structure ErrorStats where
  max_error : ℚ
  mean_error : ℚ
  msq : ℚ
  within_tolerance_1mm : Bool
  max_error_mm : ℚ
deriving Repr, DecidableEq

/-- Row-major flattening of the elementwise data. -/
def flat2 : List (List ℚ) → List ℚ
  | [] => []
  | a :: t => a ++ flat2 t

/-- `np.abs(original - dequantized)` flattened to one list. -/
def elemErrors (A B : Mat) : List ℚ :=
  flat2 ((A.rows.zip B.rows).map (fun p => (p.1.zip p.2).map (fun q => |q.1 - q.2|)))

/-- `compute_quantization_error(original, dequantized)`: shape mismatch is an
invalid-argument error; on an empty array the numpy `max` reduction raises;
otherwise max, mean, mean-square, the 1 mm flag and the max in millimeters. -/
def compute_quantization_error (original dequantized : Mat) :
    Except String ErrorStats :=
  if original.shape ≠ dequantized.shape then
    .error "Shape mismatch between original and dequantized"
  else
    match elemErrors original dequantized with
    | [] => .error "zero-size array to reduction operation maximum which has no identity"
    | e :: es =>
      let n : ℚ := ((e :: es).length : ℚ)
      let max_error := es.foldl max e
      let mean_error := (e :: es).sum / n
      let msq := ((e :: es).map (fun x => x ^ 2)).sum / n
      .ok { max_error := max_error, mean_error := mean_error, msq := msq,
            within_tolerance_1mm := decide (max_error ≤ 1 / 1000),
            max_error_mm := max_error * 1000 }

/-! ### Frame-ordering validator model (modelled from the spec) -/

/-- Modelled from the spec: the validators module (`validators/validators.py`)
that `src/tools/converter/tests/test_validators.py` imports is not among the
sources.  Per spec §4.4 check 5, each adjacent pair of frame ids that is not
strictly increasing produces one error naming the two offending ids. -/
def orderingErrors : List Nat → List (Nat × Nat)
  | a :: b :: rest => (if a < b then [] else [(a, b)]) ++ orderingErrors (b :: rest)
  | _ => []

/-- Modelled from the spec: `validate_frame_ordering(manifest)` — frame ids,
interpreted as the external ordering key, must be strictly increasing across
the manifest's frame list; an empty frame list is itself a failure; returns
the verdict and the list of offending adjacent pairs. -/
def validate_frame_ordering (frames : List Nat) : Bool × List (Nat × Nat) :=
  if frames.isEmpty then (false, [])
  else
    let errs := orderingErrors frames
    (errs.isEmpty, errs)

/-- One spatial coordinate through the whole `int16` round trip (quantize
against the sanitized bbox axis, then dequantize with the same envelope). -/
def rt16 (mn mx v : ℚ) : ℚ := dq16 mn (sanE (mx - mn)) (q16 mn (sanE (mx - mn)) v)

/-- A width-3 row through the `int16` round trip. -/
def rtRow3 (r0 : List ℚ) (rest : List (List ℚ)) (r : List ℚ) : List ℚ :=
  [rt16 (colMin r0 rest 0) (colMax r0 rest 0) (r.getD 0 0),
   rt16 (colMin r0 rest 1) (colMax r0 rest 1) (r.getD 1 0),
   rt16 (colMin r0 rest 2) (colMax r0 rest 2) (r.getD 2 0)]

/-- A width-4 row through the `int16` round trip (intensity included). -/
def rtRow4 (r0 : List ℚ) (rest : List (List ℚ)) (r : List ℚ) : List ℚ :=
  [rt16 (colMin r0 rest 0) (colMax r0 rest 0) (r.getD 0 0),
   rt16 (colMin r0 rest 1) (colMax r0 rest 1) (r.getD 1 0),
   rt16 (colMin r0 rest 2) (colMax r0 rest 2) (r.getD 2 0),
   ((qu16 (r.getD 3 0) : ℕ) : ℚ) / 65535]


/-! ### Sampler lemmas -/

/-- When `r ≤ m` positions remain, selection sampling picks exactly `r` indices. -/
theorem sampleIdx_length : ∀ (m r i s : Nat), r ≤ m → (sampleIdx m r i s).length = r
  | 0, r, _, _, h => by
    simp only [sampleIdx, List.length_nil]
    omega
  | m + 1, r, i, s, h => by
    simp only [sampleIdx]
    by_cases hc : lcg s % (m + 1) < r
    · rw [if_pos hc, List.length_cons,
        sampleIdx_length m (r - 1) (i + 1) (lcg s) (by omega)]
      omega
    · have hm : lcg s % (m + 1) ≤ m := Nat.le_of_lt_succ (Nat.mod_lt _ (by omega))
      rw [if_neg hc]
      exact sampleIdx_length m r (i + 1) (lcg s) (by omega)

/-- Every sampled index lies in the window `[i, i + m)`. -/
theorem sampleIdx_mem : ∀ (m r i s j : Nat), j ∈ sampleIdx m r i s → i ≤ j ∧ j < i + m
  | 0, _, _, _, _, hj => by simp [sampleIdx] at hj
  | m + 1, r, i, s, j, hj => by
    simp only [sampleIdx] at hj
    by_cases hc : lcg s % (m + 1) < r
    · rw [if_pos hc, List.mem_cons] at hj
      rcases hj with rfl | hj
      · omega
      · have := sampleIdx_mem m (r - 1) (i + 1) (lcg s) j hj
        omega
    · rw [if_neg hc] at hj
      have := sampleIdx_mem m r (i + 1) (lcg s) j hj
      omega

/-- Sampled indices are strictly increasing. -/
theorem sampleIdx_pairwise : ∀ (m r i s : Nat), (sampleIdx m r i s).Pairwise (· < ·)
  | 0, _, _, _ => by simp [sampleIdx]
  | m + 1, r, i, s => by
    simp only [sampleIdx]
    by_cases hc : lcg s % (m + 1) < r
    · rw [if_pos hc]
      refine List.Pairwise.cons ?_ (sampleIdx_pairwise m (r - 1) (i + 1) (lcg s))
      intro j hj
      have := sampleIdx_mem m (r - 1) (i + 1) (lcg s) j hj
      omega
    · rw [if_neg hc]
      exact sampleIdx_pairwise m r (i + 1) (lcg s)

/-! ### Index-selection lemmas -/

/-- Materializing in-bounds indices with `l[i]?` drops nothing. -/
theorem filterMap_getElem?_length {α : Type} (l : List α) :
    ∀ (idx : List Nat), (∀ j ∈ idx, j < l.length) →
      (idx.filterMap (fun i => l[i]?)).length = idx.length
  | [], _ => rfl
  | a :: t, hb => by
    rw [List.filterMap_cons, List.getElem?_eq_getElem (hb a (List.mem_cons_self a t))]
    simp only [List.length_cons]
    rw [filterMap_getElem?_length l t (fun j hj => hb j (List.mem_cons_of_mem a hj))]

/-- Materializing in-bounds indices equals mapping `List.get` over the
corresponding `Fin`-valued list. -/
theorem filterMap_getElem?_eq_pmap {α : Type} (l : List α) :
    ∀ (idx : List Nat) (hb : ∀ j ∈ idx, j < l.length),
      idx.filterMap (fun i => l[i]?) =
        (idx.pmap (fun i h => (⟨i, h⟩ : Fin l.length)) hb).map (fun i => l[i])
  | [], _ => rfl
  | a :: t, hb => by
    have ha : a < l.length := hb a (List.mem_cons_self a t)
    rw [List.filterMap_cons_some (List.getElem?_eq_getElem ha),
      List.pmap, List.map_cons]
    rw [filterMap_getElem?_eq_pmap l t (fun j hj => hb j (List.mem_cons_of_mem a hj))]
    rfl

/-- A strictly-increasing in-bounds index selection produces a sublist. -/
theorem filterMap_getElem?_sublist {α : Type} (l : List α) (idx : List Nat)
    (hp : idx.Pairwise (· < ·)) (hb : ∀ j ∈ idx, j < l.length) :
    (idx.filterMap (fun i => l[i]?)).Sublist l := by
  rw [filterMap_getElem?_eq_pmap l idx hb]
  have hfin : (idx.pmap (fun i h => (⟨i, h⟩ : Fin l.length)) hb).Pairwise (· < ·) := by
    rw [List.pairwise_pmap]
    · exact hp.imp_of_mem (fun _ _ h => by
        intro h1 h2
        exact h)
  have := List.map_getElem_sublist (l := l) hfin
  simpa using this

/-! ### Downsampler characterization -/

/-- On the sampling branch (recognized tier, valid width, `N > target`),
`downsample_points` succeeds with exactly `target` rows forming a sublist of
the input, and reports them in its metadata. -/
theorem downsample_sampling_spec (A : Mat) (tier : String) (seed target : Nat)
    (ht : tierMap tier = some target) (hw : 3 ≤ A.w) (hN : target < A.rows.length) :
    ∃ B meta, downsample_points A tier seed = .ok (B, meta) ∧
      B.w = A.w ∧ B.rows.length = target ∧ B.rows.Sublist A.rows ∧
      meta.method = "random" ∧ meta.final_count = target ∧
      meta.target_count = target ∧ meta.original_count = A.rows.length ∧
      meta.within_spec = true := by
  have hb : ∀ j ∈ npChoiceNoReplace seed A.rows.length target, j < A.rows.length := by
    intro j hj
    have := sampleIdx_mem A.rows.length target 0 seed j hj
    omega
  have hp : (npChoiceNoReplace seed A.rows.length target).Pairwise (· < ·) :=
    sampleIdx_pairwise _ _ _ _
  have hsorted : List.Sorted (· ≤ ·) (npChoiceNoReplace seed A.rows.length target) :=
    hp.imp (fun h => le_of_lt h)
  have hsort_eq : List.insertionSort (· ≤ ·)
      (npChoiceNoReplace seed A.rows.length target) =
      npChoiceNoReplace seed A.rows.length target :=
    hsorted.insertionSort_eq
  have hlen : (npChoiceNoReplace seed A.rows.length target).length = target :=
    sampleIdx_length _ _ _ _ (Nat.le_of_lt hN)
  have hdlen : ((npChoiceNoReplace seed A.rows.length target).filterMap
      (fun i => A.rows[i]?)).length = target := by
    rw [filterMap_getElem?_length A.rows _ hb, hlen]
  have hsub : ((npChoiceNoReplace seed A.rows.length target).filterMap
      (fun i => A.rows[i]?)).Sublist A.rows :=
    filterMap_getElem?_sublist A.rows _ hp hb
  simp only [downsample_points, ht, hsort_eq]
  rw [if_neg (by omega : ¬ A.w < 3), if_neg (by omega : ¬ A.rows.length ≤ target)]
  refine ⟨_, _, rfl, rfl, hdlen, hsub, rfl, hdlen, rfl, rfl, ?_⟩
  simp only [hdlen]
  rw [decide_eq_true_eq, sub_self, abs_zero]
  positivity

/-! ### Claims about the downsampler -/

/-- C1: for every point cloud of shape `(N, w)` with `w ≥ 3` and `N` strictly
greater than the target count of a recognized tier, `downsample_points`
returns a cloud of `M` points with `M ≤ N` and `|M - target| ≤ 1%` of the
target (the implementation samples exactly `target` points without
replacement), and the selected indices are sorted ascending so the output is
a subsequence of the input in input order. -/
theorem claim_C1 (A : Mat) (tier : String) (seed target : Nat)
    (ht : tierMap tier = some target) (hw : 3 ≤ A.w) (hN : target < A.rows.length) :
    ∃ B meta, downsample_points A tier seed = .ok (B, meta) ∧
      B.rows.length = target ∧ B.rows.length ≤ A.rows.length ∧
      |(B.rows.length : ℚ) - (target : ℚ)| ≤ (1 / 100) * target ∧
      B.rows.Sublist A.rows := by
  obtain ⟨B, meta, heq, hwB, hlen, hsub, _, _, _, _, _⟩ :=
    downsample_sampling_spec A tier seed target ht hw hN
  refine ⟨B, meta, heq, hlen, by omega, ?_, hsub⟩
  rw [hlen, sub_self, abs_zero]
  positivity

/-- Witness for C1 at a concrete 50001-point width-3 cloud and the 50k tier. -/
theorem claim_C1_witness :
    tierMap "50k" = some 50000 ∧
    3 ≤ (Mat.mk 3 (List.replicate 50001 [0, 0, 0])).w ∧
    50000 < (Mat.mk 3 (List.replicate 50001 [0, 0, 0])).rows.length ∧
    (∃ B meta,
      downsample_points (Mat.mk 3 (List.replicate 50001 [0, 0, 0])) "50k" 7 = .ok (B, meta) ∧
      B.rows.length = 50000 ∧
      B.rows.length ≤ (Mat.mk 3 (List.replicate 50001 [0, 0, 0])).rows.length ∧
      |(B.rows.length : ℚ) - (50000 : ℚ)| ≤ (1 / 100) * 50000 ∧
      B.rows.Sublist (Mat.mk 3 (List.replicate 50001 [0, 0, 0])).rows) :=
  ⟨rfl, by decide, by simp only [List.length_replicate]; omega,
    claim_C1 (Mat.mk 3 (List.replicate 50001 [0, 0, 0])) "50k" 7 50000 rfl (by decide)
      (by simp only [List.length_replicate]; omega)⟩

/-- C3: for every point cloud whose point count is at most the target of a
recognized tier (including the empty cloud), `downsample_points` returns the
input unchanged with `method = 'none'`, a reason string and
`within_spec = True`. -/
theorem claim_C3 (A : Mat) (tier : String) (seed target : Nat)
    (ht : tierMap tier = some target) (hw : 3 ≤ A.w) (hN : A.rows.length ≤ target) :
    downsample_points A tier seed = .ok (A,
      { method := "none", target_tier := tier, target_count := target,
        original_count := A.rows.length, final_count := A.rows.length,
        reduction_ratio := 1, within_spec := true,
        reason := some "original_count <= target_count", tolerance_pct := none }) := by
  simp only [downsample_points, ht]
  rw [if_neg (by omega : ¬ A.w < 3), if_pos hN]

/-- Witness for C3 at the empty width-4 cloud and the 100k tier. -/
theorem claim_C3_witness :
    tierMap "100k" = some 100000 ∧ 3 ≤ (Mat.mk 4 []).w ∧
    (Mat.mk 4 []).rows.length ≤ 100000 ∧
    downsample_points (Mat.mk 4 []) "100k" 42 = .ok (Mat.mk 4 [],
      { method := "none", target_tier := "100k", target_count := 100000,
        original_count := 0, final_count := 0,
        reduction_ratio := 1, within_spec := true,
        reason := some "original_count <= target_count", tolerance_pct := none }) :=
  ⟨rfl, by decide, by decide,
    claim_C3 (Mat.mk 4 []) "100k" 42 100000 rfl (by decide) (by decide)⟩

/-- C8: downsampling is deterministic — two calls of `downsample_points` with
identical (input, tier, seed) arguments return identical outputs (array and
metadata). -/
theorem claim_C8 (A A' : Mat) (tier tier' : String) (seed seed' : Nat)
    (hA : A = A') (htier : tier = tier') (hseed : seed = seed') :
    downsample_points A tier seed = downsample_points A' tier' seed' := by
  rw [hA, htier, hseed]

/-- Witness for C8 at a concrete one-point cloud. -/
theorem claim_C8_witness :
    Mat.mk 3 [[1, 2, 3]] = Mat.mk 3 [[1, 2, 3]] ∧ "50k" = "50k" ∧ 42 = 42 ∧
    downsample_points (Mat.mk 3 [[1, 2, 3]]) "50k" 42 =
      downsample_points (Mat.mk 3 [[1, 2, 3]]) "50k" 42 :=
  ⟨rfl, rfl, rfl, claim_C8 (Mat.mk 3 [[1, 2, 3]]) (Mat.mk 3 [[1, 2, 3]]) "50k" "50k" 42 42
    rfl rfl rfl⟩

/-- C10 (implicit): for every call of `downsample_points` that returns a
result, the metadata field `within_spec` is `true`: on the sampling branch the
final count equals the target exactly, and on the no-op branch it is set
unconditionally. -/
theorem claim_C10 (A : Mat) (tier : String) (seed : Nat) (B : Mat) (meta : DMeta)
    (h : downsample_points A tier seed = .ok (B, meta)) : meta.within_spec = true := by
  cases htier : tierMap tier with
  | none => simp [downsample_points, htier] at h
  | some target =>
    by_cases hw : A.w < 3
    · simp [downsample_points, htier, hw] at h
    · by_cases hN : A.rows.length ≤ target
      · simp only [downsample_points, htier, if_neg hw, if_pos hN] at h
        simp only [Except.ok.injEq, Prod.mk.injEq] at h
        rw [← h.2]
      · obtain ⟨B', meta', heq, _, _, _, _, _, _, _, hws⟩ :=
          downsample_sampling_spec A tier seed target htier (by omega) (by omega)
        rw [heq] at h
        simp only [Except.ok.injEq, Prod.mk.injEq] at h
        rw [← h.2]
        exact hws

/-- Witness for C10 at the empty width-3 cloud and the 50k tier. -/
theorem claim_C10_witness :
    downsample_points (Mat.mk 3 []) "50k" 42 = .ok (Mat.mk 3 [],
      { method := "none", target_tier := "50k", target_count := 50000,
        original_count := 0, final_count := 0,
        reduction_ratio := 1, within_spec := true,
        reason := some "original_count <= target_count", tolerance_pct := none }) ∧
    ({ method := "none", target_tier := "50k", target_count := 50000,
        original_count := 0, final_count := 0,
        reduction_ratio := 1, within_spec := true,
        reason := some "original_count <= target_count",
        tolerance_pct := none } : DMeta).within_spec = true :=
  ⟨rfl, claim_C10 (Mat.mk 3 []) "50k" 42 (Mat.mk 3 []) _ rfl⟩

/-! ### Fold min/max lemmas -/

/-- The accumulator bounds `foldl max` from below. -/
theorem le_foldl_max : ∀ (l : List ℚ) (a : ℚ), a ≤ l.foldl max a
  | [], _ => le_refl _
  | x :: t, a => le_trans (le_max_left a x) (le_foldl_max t (max a x))

/-- Every member bounds `foldl max` from below. -/
theorem le_foldl_max_of_mem : ∀ {l : List ℚ} {x : ℚ}, x ∈ l → ∀ a, x ≤ l.foldl max a
  | y :: t, x, h, a => by
    rcases List.mem_cons.mp h with rfl | h
    · exact le_trans (le_max_right a x) (le_foldl_max t (max a x))
    · exact le_foldl_max_of_mem h (max a y)

/-- `foldl min` is bounded above by the accumulator. -/
theorem foldl_min_le : ∀ (l : List ℚ) (a : ℚ), l.foldl min a ≤ a
  | [], _ => le_refl _
  | x :: t, a => le_trans (foldl_min_le t (min a x)) (min_le_left a x)

/-- `foldl min` is bounded above by every member. -/
theorem foldl_min_le_of_mem : ∀ {l : List ℚ} {x : ℚ}, x ∈ l → ∀ a, l.foldl min a ≤ x
  | y :: t, x, h, a => by
    rcases List.mem_cons.mp h with rfl | h
    · exact le_trans (foldl_min_le t (min a x)) (min_le_right a x)
    · exact foldl_min_le_of_mem h (min a y)

/-- The columnwise minimum is at most the columnwise maximum. -/
theorem colMin_le_colMax (r0 : List ℚ) (rest : List (List ℚ)) (j : Nat) :
    colMin r0 rest j ≤ colMax r0 rest j :=
  le_trans (foldl_min_le _ _) (le_foldl_max _ _)

/-! ### Float16 rounding lemmas -/

/-- Round-to-nearest lands within half a unit. -/
theorem rne_err (x : ℚ) : |(rne x : ℚ) - x| ≤ 1 / 2 := by
  unfold rne
  have h0 : (⌊x⌋ : ℚ) ≤ x := Int.floor_le x
  have h1 : x - ⌊x⌋ < 1 := by
    have := Int.lt_floor_add_one x
    linarith
  by_cases hc : x - ⌊x⌋ < 1 / 2
  · rw [if_pos hc, abs_le]
    constructor <;> linarith
  · rw [if_neg hc]
    by_cases hc2 : 1 / 2 < x - ⌊x⌋
    · rw [if_pos hc2, abs_le]
      push_cast
      constructor <;> linarith
    · rw [if_neg hc2]
      by_cases he : ⌊x⌋ % 2 = 0
      · rw [if_pos he, abs_le]
        constructor <;> linarith
      · rw [if_neg he, abs_le]
        push_cast
        constructor <;> linarith

/-- The fp16 grid rounding error is at most half an ulp. -/
theorem fp16RoundVal_err (q : ℚ) : |fp16RoundVal q - q| ≤ 2 ^ fp16UlpExp q / 2 := by
  unfold fp16RoundVal
  have hp : (0 : ℚ) < 2 ^ fp16UlpExp q := zpow_pos (by norm_num) _
  have h := rne_err (q / 2 ^ fp16UlpExp q)
  have hkey : ((rne (q / 2 ^ fp16UlpExp q) : ℚ) - q / 2 ^ fp16UlpExp q) *
      2 ^ fp16UlpExp q = (rne (q / 2 ^ fp16UlpExp q) : ℚ) * 2 ^ fp16UlpExp q - q := by
    field_simp
  calc |(rne (q / 2 ^ fp16UlpExp q) : ℚ) * 2 ^ fp16UlpExp q - q|
      = |(rne (q / 2 ^ fp16UlpExp q) : ℚ) - q / 2 ^ fp16UlpExp q| * 2 ^ fp16UlpExp q := by
        rw [← hkey, abs_mul, abs_of_pos hp]
    _ ≤ (1 / 2) * 2 ^ fp16UlpExp q := mul_le_mul_of_nonneg_right h (le_of_lt hp)
    _ = 2 ^ fp16UlpExp q / 2 := by ring

/-- Magnitudes up to 100 sit below the binade of 128: the ulp exponent is at
most `-4`. -/
theorem fp16UlpExp_le_of_abs_le {q : ℚ} (h : |q| ≤ 100) : fp16UlpExp q ≤ -4 := by
  unfold fp16UlpExp
  have hlog : Int.log 2 |q| ≤ 6 := by
    by_cases hq : 0 < |q|
    · by_contra hcon
      push_neg at hcon
      have h7 : (7 : ℤ) ≤ Int.log 2 |q| := by omega
      have hbase := Int.zpow_log_le_self (b := 2) (by norm_num) hq
      have h2 : ((2 : ℚ)) ^ (7 : ℤ) ≤ (2 : ℚ) ^ Int.log 2 |q| :=
        zpow_le_zpow_right₀ (by norm_num) h7
      have h128 : ((2 : ℚ)) ^ (7 : ℤ) = 128 := by norm_num
      push_cast at hbase
      linarith
    · have h0 : |q| = 0 := le_antisymm (not_lt.mp hq) (abs_nonneg q)
      rw [h0, Int.log_zero_right]
      norm_num
  omega

/-- For inputs of magnitude at most 100, the fp16 rounding error is at most
`2^(-5) ≤ 1/16`. -/
theorem fp16RoundVal_err_of_le {q : ℚ} (h : |q| ≤ 100) :
    |fp16RoundVal q - q| ≤ 1 / 16 := by
  have h1 := fp16RoundVal_err q
  have h2 : fp16UlpExp q ≤ -4 := fp16UlpExp_le_of_abs_le h
  have h3 : (2 : ℚ) ^ fp16UlpExp q ≤ (2 : ℚ) ^ (-4 : ℤ) :=
    zpow_le_zpow_right₀ (by norm_num) h2
  have h4 : ((2 : ℚ)) ^ (-4 : ℤ) = 1 / 16 := by norm_num
  rw [h4] at h3
  linarith

/-- Inputs of magnitude at most 100 round to a finite fp16 value. -/
theorem fp16OfRat_finite_of_le {q : ℚ} (h : |q| ≤ 100) :
    fp16OfRat q = .finite (fp16RoundVal q) := by
  unfold fp16OfRat
  rw [if_neg]
  rw [not_lt]
  have h1 := fp16RoundVal_err_of_le h
  have h2 : |fp16RoundVal q| ≤ |q| + 1 / 16 := by
    have := abs_add q (fp16RoundVal q - q)
    have he : q + (fp16RoundVal q - q) = fp16RoundVal q := by ring
    rw [he] at this
    linarith
  linarith

/-- Rounding zero gives zero. -/
theorem fp16RoundVal_zero : fp16RoundVal 0 = 0 := by
  unfold fp16RoundVal rne
  rw [zero_div]
  norm_num

/-- `astype(np.float16)` maps 0 to finite 0. -/
theorem fp16OfRat_zero : fp16OfRat 0 = .finite 0 := by
  rw [show (0 : ℚ) = ((0 : ℚ)) from rfl, fp16OfRat_finite_of_le (by norm_num),
    fp16RoundVal_zero]

/-- The ulp exponent at 70000 is 6 (binade `[65536, 131072)`). -/
theorem fp16UlpExp_70000 : fp16UlpExp 70000 = 6 := by
  unfold fp16UlpExp
  have hpos : (0 : ℚ) < |(70000 : ℚ)| := by norm_num
  have hlo : (16 : ℤ) ≤ Int.log 2 |(70000 : ℚ)| := by
    rw [← Int.zpow_le_iff_le_log (by norm_num) hpos]
    norm_num
  have hhi : Int.log 2 |(70000 : ℚ)| < 17 := by
    rw [← Int.lt_zpow_iff_log_lt (by norm_num) hpos]
    norm_num
  omega

/-- 70000 overflows the fp16 range to `+inf`. -/
theorem fp16OfRat_70000 : fp16OfRat 70000 = .inf false := by
  unfold fp16OfRat
  have herr := fp16RoundVal_err 70000
  rw [fp16UlpExp_70000] at herr
  have h64 : ((2 : ℚ)) ^ (6 : ℤ) / 2 = 32 := by norm_num
  rw [h64] at herr
  have hlow : (69968 : ℚ) ≤ fp16RoundVal 70000 := by
    have := abs_le.mp herr
    linarith [this.1]
  rw [if_pos]
  · congr 1
  · have : (65504 : ℚ) < fp16RoundVal 70000 := by linarith
    calc (65504 : ℚ) < fp16RoundVal 70000 := this
      _ ≤ |fp16RoundVal 70000| := le_abs_self _

/-! ### Claims C4, C5, C9 (quantizer envelopes and safety) -/

/-- C4: `quantize_int16` rejects every input narrower than 3 columns with the
invalid-argument error, and the sanitized bbox extent it divides by is
strictly positive on every axis — a zero extent has been replaced by unit
extent. -/
theorem claim_C4 :
    (∀ A : Mat, A.w < 3 → quantize_int16 A =
      .error "int16 quantization requires at least 3 spatial coords (x, y, z)") ∧
    (∀ (r0 : List ℚ) (rest : List (List ℚ)) (j : Nat),
      0 < sanE (colMax r0 rest j - colMin r0 rest j)) := by
  constructor
  · intro A hA
    simp only [quantize_int16, if_pos hA]
  · intro r0 rest j
    have h := colMin_le_colMax r0 rest j
    unfold sanE
    by_cases h0 : colMax r0 rest j - colMin r0 rest j = 0
    · rw [if_pos h0]
      norm_num
    · rw [if_neg h0]
      have : 0 ≤ colMax r0 rest j - colMin r0 rest j := by linarith
      rcases lt_or_eq_of_le this with h1 | h1
      · exact h1
      · exact absurd h1.symm h0

/-- Witness for C4: a 2-column cloud is rejected, and the degenerate
single-point axis gets a positive (unit) sanitized extent. -/
theorem claim_C4_witness :
    ((Mat.mk 2 [[1, 2]]).w < 3 ∧ quantize_int16 (Mat.mk 2 [[1, 2]]) =
      .error "int16 quantization requires at least 3 spatial coords (x, y, z)") ∧
    0 < sanE (colMax [5, 5, 5] [] 0 - colMin [5, 5, 5] [] 0) :=
  ⟨⟨by decide, claim_C4.1 (Mat.mk 2 [[1, 2]]) (by decide)⟩,
    claim_C4.2 [5, 5, 5] [] 0⟩

/-- C5 counterexample: quantizing the cloud `[[70000, 0, 0]]` — whose first
coordinate exceeds the fp16 range — silently overflows that coordinate to
+infinity, and the returned envelope is byte-for-byte the one returned for an
in-range cloud: no precision warning is surfaced to the caller. -/
theorem claim_C5_cex :
    (quantize_fp16 (Mat.mk 3 [[70000, 0, 0]])).1 =
      .half 3 [[.inf false, .finite 0, .finite 0]] ∧
    (quantize_fp16 (Mat.mk 3 [[70000, 0, 0]])).2 =
      (quantize_fp16 (Mat.mk 3 [[0, 0, 0]])).2 := by
  constructor
  · show QPoints.half 3 [[fp16OfRat 70000, fp16OfRat 0, fp16OfRat 0]] = _
    rw [fp16OfRat_70000, fp16OfRat_zero]
  · rfl

/-- C5 amended: the fp16 envelope is a constant independent of the input —
the only range information is the static `suitable_range` documentation
string — and out-of-range coordinates silently become infinities (here
70000 ↦ +inf); no per-input warning is produced. -/
theorem claim_C5_amended :
    (∀ A : Mat, (quantize_fp16 A).2 =
      { mode := "fp16", dtype := "float16", bytes_per_point := 8,
        compression := 1 / 2, precision_loss_pct := some (1 / 10),
        suitable_range := some "[-65504, 65504] (meters)",
        bbox_min := none, bbox_max := none, intensity_scale := none,
        precision_mm := none }) ∧
    fp16OfRat 70000 = .inf false :=
  ⟨fun _ => rfl, fp16OfRat_70000⟩

/-- C9 counterexample: for the width-3 cloud `[[1, 2, 3]]` the fp16 envelope
records `bytes_per_point = 8`, not `2 * 3 = 6` (half of the width-3 float32
footprint): the value is hard-coded assuming 4 coordinates. -/
theorem claim_C9_cex :
    (quantize_fp16 (Mat.mk 3 [[1, 2, 3]])).2.bytes_per_point = 8 ∧
    2 * (Mat.mk 3 [[1, 2, 3]]).w = 6 ∧ (8 : Nat) ≠ 6 :=
  ⟨rfl, rfl, by decide⟩

/-- C9 amended: the fp16 envelope always records the constant
`bytes_per_point = 8` (2 bytes × 4 assumed coordinates) and compression 0.5,
for every input width; this equals 2 bytes per coordinate times the width
only for width-4 clouds. -/
theorem claim_C9_amended (A : Mat) :
    (quantize_fp16 A).2.bytes_per_point = 8 ∧
    (quantize_fp16 A).2.compression = 1 / 2 ∧
    (A.w = 4 → (quantize_fp16 A).2.bytes_per_point = 2 * A.w) := by
  refine ⟨rfl, rfl, fun h => ?_⟩
  rw [h]
  rfl

/-- Witness for C9 (amended) at a width-4 cloud. -/
theorem claim_C9_amended_witness :
    (quantize_fp16 (Mat.mk 4 [[1, 2, 3, 4]])).2.bytes_per_point = 8 ∧
    (quantize_fp16 (Mat.mk 4 [[1, 2, 3, 4]])).2.compression = 1 / 2 ∧
    ((Mat.mk 4 [[1, 2, 3, 4]]).w = 4 →
      (quantize_fp16 (Mat.mk 4 [[1, 2, 3, 4]])).2.bytes_per_point =
        2 * (Mat.mk 4 [[1, 2, 3, 4]]).w) :=
  claim_C9_amended (Mat.mk 4 [[1, 2, 3, 4]])

/-! ### Frame-ordering validator (claim C6) -/

/-- No ordering errors exactly when adjacent ids strictly increase. -/
theorem orderingErrors_eq_nil_iff :
    ∀ l : List Nat, orderingErrors l = [] ↔ l.Chain' (· < ·)
  | [] => by simp [orderingErrors]
  | [a] => by simp [orderingErrors]
  | a :: b :: rest => by
    have heq : orderingErrors (a :: b :: rest) =
        (if a < b then [] else [(a, b)]) ++ orderingErrors (b :: rest) := rfl
    rw [heq, List.chain'_cons]
    by_cases hab : a < b
    · rw [if_pos hab, List.nil_append, orderingErrors_eq_nil_iff (b :: rest)]
      simp [hab]
    · rw [if_neg hab]
      simp [hab]

/-- Every out-of-order adjacent pair appears among the errors. -/
theorem orderingErrors_mem :
    ∀ (l : List Nat) (i : Nat) (a b : Nat), l[i]? = some a → l[i + 1]? = some b →
      ¬ a < b → (a, b) ∈ orderingErrors l
  | [], i, a, b, ha, _, _ => by simp at ha
  | [x], i, a, b, ha, hb, _ => by
    rcases i with _ | j
    · simp at hb
    · simp at ha
  | x :: y :: rest, i, a, b, ha, hb, hab => by
    unfold orderingErrors
    rcases i with _ | j
    · simp only [List.getElem?_cons_zero, Option.some.injEq] at ha
      simp only [List.getElem?_cons_succ, List.getElem?_cons_zero,
        Option.some.injEq] at hb
      subst ha
      subst hb
      rw [if_neg hab]
      exact List.mem_append_left _ (List.mem_singleton_self _)
    · rw [List.getElem?_cons_succ] at ha
      rw [List.getElem?_cons_succ] at hb
      exact List.mem_append_right _
        (orderingErrors_mem (y :: rest) j a b ha hb hab)

/-- C6: the frame-ordering check fails on an empty frame list, reports every
adjacent out-of-order pair by its two ids, and passes exactly when the list
is non-empty and strictly increasing. -/
theorem claim_C6 (frames : List Nat) :
    ((validate_frame_ordering frames).1 = true ↔
      frames ≠ [] ∧ frames.Chain' (· < ·)) ∧
    (∀ i a b, frames[i]? = some a → frames[i + 1]? = some b → ¬ a < b →
      (a, b) ∈ (validate_frame_ordering frames).2) := by
  constructor
  · unfold validate_frame_ordering
    cases frames with
    | nil => simp
    | cons x t =>
      rw [if_neg (by simp)]
      simp only [List.isEmpty_eq_true, ne_eq, reduceCtorEq, not_false_iff, true_and]
      exact orderingErrors_eq_nil_iff (x :: t)
  · intro i a b ha hb hab
    unfold validate_frame_ordering
    cases frames with
    | nil => simp at ha
    | cons x t =>
      rw [if_neg (by simp)]
      exact orderingErrors_mem (x :: t) i a b ha hb hab

/-- Witness for C6 at the concrete out-of-order list `[1, 0]`. -/
theorem claim_C6_witness :
    (((validate_frame_ordering [1, 0]).1 = true ↔
      ([1, 0] : List Nat) ≠ [] ∧ ([1, 0] : List Nat).Chain' (· < ·)) ∧
    (∀ i a b, ([1, 0] : List Nat)[i]? = some a →
      ([1, 0] : List Nat)[i + 1]? = some b → ¬ a < b →
      (a, b) ∈ (validate_frame_ordering [1, 0]).2)) :=
  claim_C6 [1, 0]

/-! ### Error-statistics lemmas -/

/-- Unfolding equation for `flat2`. -/
theorem flat2_cons (a : List ℚ) (t : List (List ℚ)) :
    flat2 (a :: t) = a ++ flat2 t := rfl

/-- Membership in a flattening comes from membership in a block. -/
theorem mem_flat2 : ∀ (L : List (List ℚ)) (e : ℚ), e ∈ flat2 L → ∃ l, l ∈ L ∧ e ∈ l
  | [], e, h => by simp [flat2] at h
  | a :: t, e, h => by
    rw [flat2_cons, List.mem_append] at h
    rcases h with h | h
    · exact ⟨a, List.mem_cons_self a t, h⟩
    · obtain ⟨l, hl, he⟩ := mem_flat2 t e h
      exact ⟨l, List.mem_cons_of_mem a hl, he⟩

/-- Zipping a list with its own image lists the graph of the function. -/
theorem zip_self_map {α β : Type} (l : List α) (g : α → β) :
    l.zip (l.map g) = l.map (fun a => (a, g a)) := by
  have := List.zip_map' id g l
  simpa using this

/-- `elemErrors` against a row-mapped matrix, in per-row form. -/
theorem elemErrors_map_form (A : Mat) (w : Nat) (g : List ℚ → List ℚ) :
    elemErrors A ⟨w, A.rows.map g⟩ =
      flat2 (A.rows.map (fun r => (r.zip (g r)).map (fun q => |q.1 - q.2|))) := by
  unfold elemErrors
  rw [show (Mat.mk w (A.rows.map g)).rows = A.rows.map g from rfl, zip_self_map,
    List.map_map]
  rfl

/-- Every elementwise error is nonnegative. -/
theorem elemErrors_nonneg (A B : Mat) : ∀ e ∈ elemErrors A B, 0 ≤ e := by
  intro e he
  unfold elemErrors at he
  obtain ⟨l, hl, hel⟩ := mem_flat2 _ e he
  obtain ⟨p, _, rfl⟩ := List.mem_map.mp hl
  obtain ⟨q, _, rfl⟩ := List.mem_map.mp hel
  exact abs_nonneg _

/-- A list mean is bounded by any elementwise bound. -/
theorem sum_div_card_le (l : List ℚ) (b : ℚ) (hne : l ≠ []) (hb : ∀ x ∈ l, x ≤ b) :
    l.sum / l.length ≤ b := by
  have hlen : (0 : ℚ) < l.length := by
    have := List.length_pos.mpr hne
    exact_mod_cast this
  rw [div_le_iff₀ hlen]
  have h := List.sum_le_card_nsmul l b hb
  rw [nsmul_eq_mul] at h
  linarith

/-- List Cauchy–Schwarz: the squared sum is at most `n` times the sum of
squares. -/
theorem sq_sum_le : ∀ l : List ℚ, l.sum ^ 2 ≤ (l.length : ℚ) * (l.map (fun x => x ^ 2)).sum
  | [] => by simp
  | a :: t => by
    have IH := sq_sum_le t
    simp only [List.sum_cons, List.length_cons, List.map_cons]
    push_cast
    rcases eq_or_lt_of_le (by positivity : (0 : ℚ) ≤ (t.length : ℚ)) with h0 | h0
    · have hlen0 : t.length = 0 := by exact_mod_cast h0.symm
      have ht : t = [] := List.length_eq_zero.mp hlen0
      subst ht
      simp
    · have key : (t.length : ℚ) * (((t.length : ℚ) + 1) *
          (a ^ 2 + (List.map (fun x => x ^ 2) t).sum) - (a + t.sum) ^ 2) =
          ((t.length : ℚ) * a - t.sum) ^ 2 +
          ((t.length : ℚ) + 1) *
            ((t.length : ℚ) * (List.map (fun x => x ^ 2) t).sum - t.sum ^ 2) := by
        ring
      nlinarith [key, sq_nonneg ((t.length : ℚ) * a - t.sum),
        mul_nonneg (by linarith : (0 : ℚ) ≤ (t.length : ℚ) + 1)
          (sub_nonneg.mpr IH), h0]

/-! ### Claim C7 (error metric) -/

/-- C7 counterexample: for the empty same-shape pair, the `max` reduction
raises instead of returning statistics. -/
theorem claim_C7_cex :
    (Mat.mk 3 []).shape = (Mat.mk 3 []).shape ∧
    compute_quantization_error (Mat.mk 3 []) (Mat.mk 3 []) =
      .error "zero-size array to reduction operation maximum which has no identity" :=
  ⟨rfl, rfl⟩

/-- C7 amended: for every same-shape pair with at least one element,
`compute_quantization_error` returns statistics with
`mean_error ≤ rmse ≤ max_error`, the millimeter flag equivalent to
`max_error ≤ 1e-3`, and the millimeter figure equal to `max_error * 1000`;
a shape mismatch raises the invalid-argument error (on an empty same-shape
pair the numpy reduction raises, so no statistics are returned there). -/
theorem claim_C7_amended :
    (∀ A B : Mat, A.shape = B.shape → elemErrors A B ≠ [] →
      ∃ stats, compute_quantization_error A B = .ok stats ∧
        (stats.mean_error : ℝ) ≤ Real.sqrt (stats.msq : ℝ) ∧
        Real.sqrt (stats.msq : ℝ) ≤ (stats.max_error : ℝ) ∧
        (stats.within_tolerance_1mm = true ↔ stats.max_error ≤ 1 / 1000) ∧
        stats.max_error_mm = stats.max_error * 1000) ∧
    (∀ A B : Mat, A.shape ≠ B.shape →
      compute_quantization_error A B =
        .error "Shape mismatch between original and dequantized") := by
  constructor
  · intro A B hsh hne
    unfold compute_quantization_error
    rw [if_neg (by simp [hsh])]
    have hnn := elemErrors_nonneg A B
    rcases heE : elemErrors A B with _ | ⟨e, es⟩
    · exact absurd heE hne
    · rw [heE] at hnn
      refine ⟨_, rfl, ?_, ?_, ?_, rfl⟩
      · -- mean ≤ sqrt msq
        have hlen : (0 : ℚ) < ((e :: es).length : ℚ) := by
          have : 0 < (e :: es).length := by simp
          exact_mod_cast this
        have hC := sq_sum_le (e :: es)
        have hmean2 : ((e :: es).sum / ((e :: es).length : ℚ)) ^ 2 ≤
            ((e :: es).map (fun x => x ^ 2)).sum / ((e :: es).length : ℚ) := by
          rw [div_pow, pow_two ((e :: es).length : ℚ), div_le_div_iff₀
            (by positivity) hlen]
          calc (e :: es).sum ^ 2 * ((e :: es).length : ℚ)
              ≤ (((e :: es).length : ℚ) * ((e :: es).map (fun x => x ^ 2)).sum) *
                ((e :: es).length : ℚ) := by
                exact mul_le_mul_of_nonneg_right hC (le_of_lt hlen)
            _ = ((e :: es).map (fun x => x ^ 2)).sum *
                (((e :: es).length : ℚ) * ((e :: es).length : ℚ)) := by ring
        rw [Real.le_sqrt]
        · exact_mod_cast hmean2
        · have hsum : 0 ≤ (e :: es).sum := List.sum_nonneg hnn
          have : (0 : ℚ) ≤ (e :: es).sum / ((e :: es).length : ℚ) := by positivity
          exact_mod_cast this
        · have hsq : 0 ≤ ((e :: es).map (fun x => x ^ 2)).sum :=
            List.sum_nonneg (by
              intro x hx
              obtain ⟨y, _, rfl⟩ := List.mem_map.mp hx
              positivity)
          have : (0 : ℚ) ≤ ((e :: es).map (fun x => x ^ 2)).sum /
              ((e :: es).length : ℚ) := by positivity
          exact_mod_cast this
      · -- sqrt msq ≤ max
        have hmaxb : ∀ x ∈ e :: es, x ≤ es.foldl max e := by
          intro x hx
          rcases List.mem_cons.mp hx with rfl | hx
          · exact le_foldl_max es x
          · exact le_foldl_max_of_mem hx e
        have hmax0 : 0 ≤ es.foldl max e :=
          le_trans (hnn e (List.mem_cons_self e es)) (le_foldl_max es e)
        have hmsq : ((e :: es).map (fun x => x ^ 2)).sum / ((e :: es).length : ℚ) ≤
            (es.foldl max e) ^ 2 := by
          rw [show (((e :: es).length : ℚ)) =
            (((e :: es).map (fun x => x ^ 2)).length : ℚ) by simp]
          apply sum_div_card_le
          · simp
          · intro x hx
            obtain ⟨y, hy, rfl⟩ := List.mem_map.mp hx
            exact pow_le_pow_left₀ (hnn y hy) (hmaxb y hy) 2
        rw [Real.sqrt_le_iff]
        constructor
        · exact_mod_cast hmax0
        · exact_mod_cast hmsq
      · rw [decide_eq_true_eq]
  · intro A B hsh
    unfold compute_quantization_error
    rw [if_pos (by simpa using hsh)]

/-- Witness for C7 (amended) at a concrete one-point pair and a concrete
mismatched pair. -/
theorem claim_C7_amended_witness :
    ((Mat.mk 3 [[1, 2, 3]]).shape = (Mat.mk 3 [[1, 2, 3]]).shape ∧
      elemErrors (Mat.mk 3 [[1, 2, 3]]) (Mat.mk 3 [[1, 2, 3]]) ≠ [] ∧
      (∃ stats, compute_quantization_error (Mat.mk 3 [[1, 2, 3]])
          (Mat.mk 3 [[1, 2, 3]]) = .ok stats ∧
        (stats.mean_error : ℝ) ≤ Real.sqrt (stats.msq : ℝ) ∧
        Real.sqrt (stats.msq : ℝ) ≤ (stats.max_error : ℝ) ∧
        (stats.within_tolerance_1mm = true ↔ stats.max_error ≤ 1 / 1000) ∧
        stats.max_error_mm = stats.max_error * 1000)) ∧
    ((Mat.mk 3 []).shape ≠ (Mat.mk 4 []).shape ∧
      compute_quantization_error (Mat.mk 3 []) (Mat.mk 4 []) =
        .error "Shape mismatch between original and dequantized") :=
  ⟨⟨rfl, by simp [elemErrors, flat2],
    claim_C7_amended.1 (Mat.mk 3 [[1, 2, 3]]) (Mat.mk 3 [[1, 2, 3]]) rfl
      (by simp [elemErrors, flat2])⟩,
   ⟨by simp [Mat.shape], claim_C7_amended.2 (Mat.mk 3 []) (Mat.mk 4 [])
      (by simp [Mat.shape])⟩⟩

/-! ### Truncation, wrapping, and per-value round-trip lemmas -/

/-- Truncation toward zero lands within one unit. -/
theorem truncQ_err (x : ℚ) : |(truncQ x : ℚ) - x| < 1 := by
  unfold truncQ
  by_cases h : 0 ≤ x
  · rw [if_pos h, abs_lt]
    have h1 := Int.floor_le x
    have h2 := Int.lt_floor_add_one x
    constructor <;> [linarith; linarith]
  · rw [if_neg h, abs_lt]
    have h1 := Int.le_ceil x
    have h2 := Int.ceil_lt_add_one x
    constructor <;> [linarith; linarith]

/-- Truncation toward zero does not increase magnitude. -/
theorem abs_truncQ_le (x : ℚ) : |(truncQ x : ℚ)| ≤ |x| := by
  unfold truncQ
  by_cases h : 0 ≤ x
  · rw [if_pos h]
    have h0 : (0 : ℚ) ≤ (⌊x⌋ : ℚ) := by
      exact_mod_cast Int.floor_nonneg.mpr h
    rw [abs_of_nonneg h0, abs_of_nonneg h]
    exact Int.floor_le x
  · push_neg at h
    rw [if_neg (not_le.mpr h)]
    have h0 : ((⌈x⌉ : ℚ)) ≤ 0 := by
      have hc : ⌈x⌉ ≤ (0 : ℤ) := Int.ceil_le.mpr (by exact_mod_cast le_of_lt h)
      exact_mod_cast hc
    rw [abs_of_nonpos h0, abs_of_nonpos (le_of_lt h)]
    have := Int.le_ceil x
    linarith

/-- `astype(np.int16)` is the identity on values already in range. -/
theorem wrapInt16_eq (z : ℤ) (h1 : -32768 ≤ z) (h2 : z ≤ 32767) : wrapInt16 z = z := by
  unfold wrapInt16
  omega

/-- The sanitized extent of a nonnegative extent is positive. -/
theorem sanE_pos {e : ℚ} (he : 0 ≤ e) : 0 < sanE e := by
  unfold sanE
  by_cases h0 : e = 0
  · rw [if_pos h0]
    norm_num
  · rw [if_neg h0]
    exact lt_of_le_of_ne he (Ne.symm h0)

/-- A whole spatial `int16` round trip moves a coordinate by at most the
sanitized range over 65534. -/
theorem q16_roundtrip (mn mx v : ℚ) (hmn : mn ≤ v) (hmx : v ≤ mx) :
    |dq16 mn (sanE (mx - mn)) (q16 mn (sanE (mx - mn)) v) - v| ≤
      sanE (mx - mn) / 65534 := by
  set rng := sanE (mx - mn) with hrng_def
  have hext : (0 : ℚ) ≤ mx - mn := by linarith
  have hrng_pos : 0 < rng := sanE_pos hext
  have hrng_ne : rng ≠ 0 := ne_of_gt hrng_pos
  have hvle : v - mn ≤ rng := by
    rw [hrng_def]
    unfold sanE
    by_cases h0 : mx - mn = 0
    · rw [if_pos h0]
      linarith
    · rw [if_neg h0]
      linarith
  set x := (2 * (v - mn) / rng - 1) * 32767 with hx
  have hfrac0 : 0 ≤ (v - mn) / rng := div_nonneg (by linarith) (le_of_lt hrng_pos)
  have hfrac1 : (v - mn) / rng ≤ 1 := (div_le_one hrng_pos).mpr hvle
  have hnorm_lo : -32767 ≤ x := by
    rw [hx, mul_div_assoc]
    nlinarith
  have hnorm_hi : x ≤ 32767 := by
    rw [hx, mul_div_assoc]
    nlinarith
  have htrQ : |(truncQ x : ℚ)| ≤ 32767 :=
    le_trans (abs_truncQ_le x) (abs_le.mpr ⟨hnorm_lo, hnorm_hi⟩)
  have htr_lo : (-32767 : ℚ) ≤ ((truncQ x : ℤ) : ℚ) := (abs_le.mp htrQ).1
  have htr_hi : ((truncQ x : ℤ) : ℚ) ≤ 32767 := (abs_le.mp htrQ).2
  have hwrap : wrapInt16 (truncQ x) = truncQ x := by
    apply wrapInt16_eq
    · have : (-32768 : ℚ) ≤ ((truncQ x : ℤ) : ℚ) := by linarith
      exact_mod_cast this
    · exact_mod_cast htr_hi
  unfold q16 dq16
  rw [← hx, hwrap]
  have hkey : ((truncQ x : ℚ) / 32767 + 1) / 2 * rng + mn - v =
      ((truncQ x : ℚ) - x) * (rng / 65534) := by
    rw [hx]
    field_simp
    ring
  rw [hkey, abs_mul, abs_of_pos (by positivity : (0 : ℚ) < rng / 65534)]
  calc |(truncQ x : ℚ) - x| * (rng / 65534)
      ≤ 1 * (rng / 65534) :=
        mul_le_mul_of_nonneg_right (le_of_lt (truncQ_err x)) (by positivity)
    _ = rng / 65534 := one_mul _

/-- The intensity `uint16` round trip moves a `[0,1]` value by at most
`1/65535`. -/
theorem qu16_roundtrip (v : ℚ) (h0 : 0 ≤ v) (h1 : v ≤ 1) :
    |((qu16 v : ℕ) : ℚ) / 65535 - v| ≤ 1 / 65535 := by
  unfold qu16
  have hy0 : 0 ≤ v * 65535 := by positivity
  have hy1 : v * 65535 ≤ 65535 := by nlinarith
  rw [max_eq_left hy0, min_eq_left hy1]
  unfold truncQ
  rw [if_pos hy0]
  have hfl0 : 0 ≤ ⌊v * 65535⌋ := Int.floor_nonneg.mpr hy0
  have hfl1 : ⌊v * 65535⌋ ≤ 65535 := by
    have h2 : ((⌊v * 65535⌋ : ℤ) : ℚ) ≤ 65535 := le_trans (Int.floor_le _) hy1
    exact_mod_cast h2
  have hmod : ⌊v * 65535⌋ % 65536 = ⌊v * 65535⌋ := by omega
  rw [hmod]
  have htn : ((⌊v * 65535⌋.toNat : ℕ) : ℚ) = ((⌊v * 65535⌋ : ℤ) : ℚ) := by
    exact_mod_cast congrArg (Int.cast : ℤ → ℚ) (Int.toNat_of_nonneg hfl0)
  rw [htn]
  have herr : |(⌊v * 65535⌋ : ℚ) - v * 65535| ≤ 1 := by
    have ha := Int.floor_le (v * 65535)
    have hb := Int.lt_floor_add_one (v * 65535)
    rw [abs_le]
    constructor <;> linarith
  have hkey : (⌊v * 65535⌋ : ℚ) / 65535 - v = ((⌊v * 65535⌋ : ℚ) - v * 65535) / 65535 := by
    ring
  rw [hkey, abs_div, abs_of_pos (by norm_num : (0 : ℚ) < 65535)]
  gcongr

/-! ### Column bound lemmas -/

/-- `foldl min` stays above any common lower bound. -/
theorem foldl_min_ge : ∀ (l : List ℚ) (a b : ℚ), b ≤ a → (∀ x ∈ l, b ≤ x) →
    b ≤ l.foldl min a
  | [], _, _, hba, _ => hba
  | x :: t, a, b, hba, hb =>
    foldl_min_ge t (min a x) b (le_min hba (hb x (List.mem_cons_self x t)))
      (fun y hy => hb y (List.mem_cons_of_mem x hy))

/-- `foldl max` stays below any common upper bound. -/
theorem foldl_max_le : ∀ (l : List ℚ) (a b : ℚ), a ≤ b → (∀ x ∈ l, x ≤ b) →
    l.foldl max a ≤ b
  | [], _, _, hab, _ => hab
  | x :: t, a, b, hab, hb =>
    foldl_max_le t (max a x) b (max_le hab (hb x (List.mem_cons_self x t)))
      (fun y hy => hb y (List.mem_cons_of_mem x hy))

/-- The column minimum is at most each row's entry. -/
theorem colMin_le (r0 : List ℚ) (rest : List (List ℚ)) (j : Nat) :
    ∀ r ∈ r0 :: rest, colMin r0 rest j ≤ r.getD j 0 := by
  intro r hr
  rcases List.mem_cons.mp hr with rfl | hr
  · exact foldl_min_le _ _
  · exact foldl_min_le_of_mem (List.mem_map_of_mem _ hr) _

/-- The column maximum is at least each row's entry. -/
theorem le_colMax (r0 : List ℚ) (rest : List (List ℚ)) (j : Nat) :
    ∀ r ∈ r0 :: rest, r.getD j 0 ≤ colMax r0 rest j := by
  intro r hr
  rcases List.mem_cons.mp hr with rfl | hr
  · exact le_foldl_max _ _
  · exact le_foldl_max_of_mem (List.mem_map_of_mem _ hr) _

/-- A common lower bound on a column bounds its minimum. -/
theorem colMin_ge (r0 : List ℚ) (rest : List (List ℚ)) (j : Nat) (b : ℚ)
    (h : ∀ r ∈ r0 :: rest, b ≤ r.getD j 0) : b ≤ colMin r0 rest j := by
  apply foldl_min_ge
  · exact h r0 (List.mem_cons_self r0 rest)
  · intro x hx
    obtain ⟨r, hr, rfl⟩ := List.mem_map.mp hx
    exact h r (List.mem_cons_of_mem r0 hr)

/-- A common upper bound on a column bounds its maximum. -/
theorem colMax_le (r0 : List ℚ) (rest : List (List ℚ)) (j : Nat) (b : ℚ)
    (h : ∀ r ∈ r0 :: rest, r.getD j 0 ≤ b) : colMax r0 rest j ≤ b := by
  apply foldl_max_le
  · exact h r0 (List.mem_cons_self r0 rest)
  · intro x hx
    obtain ⟨r, hr, rfl⟩ := List.mem_map.mp hx
    exact h r (List.mem_cons_of_mem r0 hr)

/-! ### Quantize–dequantize composition lemmas -/

/-- A row of in-range values maps to finite float16 data, which widens back
exactly. -/
theorem mapM_toF32_row : ∀ (r : List ℚ), (∀ x ∈ r, |x| ≤ 100) →
    (r.map fp16OfRat).mapM Fp16.toF32 = some (r.map fp16RoundVal)
  | [], _ => rfl
  | x :: t, h => by
    rw [List.map_cons, List.mapM_cons,
      fp16OfRat_finite_of_le (h x (List.mem_cons_self x t)),
      mapM_toF32_row t (fun y hy => h y (List.mem_cons_of_mem x hy))]
    rfl

/-- Row-of-rows version of `mapM_toF32_row`. -/
theorem mapM_toF32_rows : ∀ (rows : List (List ℚ)),
    (∀ r ∈ rows, ∀ x ∈ r, |x| ≤ 100) →
    (rows.map (List.map fp16OfRat)).mapM (List.mapM Fp16.toF32) =
      some (rows.map (List.map fp16RoundVal))
  | [], _ => rfl
  | r :: t, h => by
    rw [List.map_cons, List.mapM_cons,
      mapM_toF32_row r (h r (List.mem_cons_self r t)),
      mapM_toF32_rows t (fun s hs => h s (List.mem_cons_of_mem r hs))]
    rfl

/-- Dequantizing the fp16 quantization of an in-range cloud recovers the
per-value rounded cloud. -/
theorem deq_quantize_fp16 (A : Mat) (h : ∀ r ∈ A.rows, ∀ x ∈ r, |x| ≤ 100) :
    dequantize_points (quantize_fp16 A).1 (quantize_fp16 A).2 =
      .ok ⟨A.w, A.rows.map (List.map fp16RoundVal)⟩ := by
  have hmode : (quantize_fp16 A).2.mode = "fp16" := rfl
  have hq : (quantize_fp16 A).1 = .half A.w (A.rows.map (List.map fp16OfRat)) := rfl
  unfold dequantize_points
  rw [hmode, hq, if_neg (by decide : ¬ ("fp16" : String) = "off"), if_pos rfl]
  show (match (A.rows.map (List.map fp16OfRat)).mapM (List.mapM Fp16.toF32) with
    | some rs => Except.ok (⟨A.w, rs⟩ : Mat)
    | none => Except.error "non-finite float16 value outside the rational embedding") = _
  rw [mapM_toF32_rows A.rows h]

/-- Evaluation of `dequantize_points` on a plain `int16` array with an
`int16` envelope carrying the bbox. -/
theorem dequantize_i16x_eq (rows : List (ℤ × ℤ × ℤ)) (a b c d e f : ℚ)
    (m : QMeta) (hm : m.mode = "int16") (hmin : m.bbox_min = some [a, b, c])
    (hmax : m.bbox_max = some [d, e, f]) :
    dequantize_points (.i16x rows) m = .ok ⟨3, rows.map (fun p =>
      [dq16 a (sanE (d - a)) p.1, dq16 b (sanE (e - b)) p.2.1,
       dq16 c (sanE (f - c)) p.2.2])⟩ := by
  unfold dequantize_points
  rw [hm, hmin, hmax, if_neg (by decide : ¬ ("int16" : String) = "off"),
    if_neg (by decide : ¬ ("int16" : String) = "fp16"), if_pos rfl]

/-- Evaluation of `dequantize_points` on a structured `int16 + uint16` array
with an `int16` envelope carrying the bbox. -/
theorem dequantize_i16xi_eq (rows : List (ℤ × ℤ × ℤ × ℕ)) (a b c d e f : ℚ)
    (m : QMeta) (hm : m.mode = "int16") (hmin : m.bbox_min = some [a, b, c])
    (hmax : m.bbox_max = some [d, e, f]) :
    dequantize_points (.i16xi rows) m = .ok ⟨4, rows.map (fun p =>
      [dq16 a (sanE (d - a)) p.1, dq16 b (sanE (e - b)) p.2.1,
       dq16 c (sanE (f - c)) p.2.2.1, (p.2.2.2 : ℚ) / 65535])⟩ := by
  unfold dequantize_points
  rw [hm, hmin, hmax, if_neg (by decide : ¬ ("int16" : String) = "off"),
    if_neg (by decide : ¬ ("int16" : String) = "fp16"), if_pos rfl]

/-- Quantize–dequantize round trip for a nonempty width-3 cloud in `int16`
mode. -/
theorem roundtrip_int16_w3 (r0 : List ℚ) (rest : List (List ℚ)) :
    ∃ q m, quantize_int16 ⟨3, r0 :: rest⟩ = .ok (q, m) ∧
      dequantize_points q m = .ok ⟨3, (r0 :: rest).map (rtRow3 r0 rest)⟩ := by
  refine ⟨_, _, rfl, ?_⟩
  rw [dequantize_i16x_eq _ (colMin r0 rest 0) (colMin r0 rest 1) (colMin r0 rest 2)
    (colMax r0 rest 0) (colMax r0 rest 1) (colMax r0 rest 2) _ rfl rfl rfl,
    List.map_map]
  rfl

/-- Quantize–dequantize round trip for a nonempty width-4 cloud in `int16`
mode. -/
theorem roundtrip_int16_w4 (r0 : List ℚ) (rest : List (List ℚ)) :
    ∃ q m, quantize_int16 ⟨4, r0 :: rest⟩ = .ok (q, m) ∧
      dequantize_points q m = .ok ⟨4, (r0 :: rest).map (rtRow4 r0 rest)⟩ := by
  refine ⟨_, _, rfl, ?_⟩
  rw [dequantize_i16xi_eq _ (colMin r0 rest 0) (colMin r0 rest 1) (colMin r0 rest 2)
    (colMax r0 rest 0) (colMax r0 rest 1) (colMax r0 rest 2) _ rfl rfl rfl,
    List.map_map]
  rfl

/-! ### Bounded round-trip statistics -/

/-- If every elementwise error of a row-mapped reconstruction is bounded by
`c`, the error statistics exist and the mean squared error is at most `c²`. -/
theorem cqe_of_map (A : Mat) (g : List ℚ → List ℚ) (c : ℚ)
    (herr : ∀ r ∈ A.rows, ∀ p ∈ r.zip (g r), |p.1 - p.2| ≤ c)
    (hne : elemErrors A ⟨A.w, A.rows.map g⟩ ≠ []) :
    ∃ stats, compute_quantization_error A ⟨A.w, A.rows.map g⟩ = .ok stats ∧
      stats.msq ≤ c ^ 2 := by
  unfold compute_quantization_error
  rw [if_neg (by simp [Mat.shape])]
  rcases heE : elemErrors A ⟨A.w, A.rows.map g⟩ with _ | ⟨e, es⟩
  · exact absurd heE hne
  · refine ⟨_, rfl, ?_⟩
    have hbound : ∀ x ∈ e :: es, x ^ 2 ≤ c ^ 2 := by
      intro x hx
      have hx' : x ∈ elemErrors A ⟨A.w, A.rows.map g⟩ := by
        rw [heE]
        exact hx
      rw [elemErrors_map_form] at hx'
      obtain ⟨l, hl, hel⟩ := mem_flat2 _ x hx'
      obtain ⟨r, hr, rfl⟩ := List.mem_map.mp hl
      obtain ⟨p, hp, rfl⟩ := List.mem_map.mp hel
      exact pow_le_pow_left₀ (abs_nonneg _) (herr r hr p hp) 2
    show ((e :: es).map (fun x => x ^ 2)).sum / (((e :: es).length : ℚ)) ≤ c ^ 2
    rw [show (((e :: es).length : ℚ)) =
      (((e :: es).map (fun x => x ^ 2)).length : ℚ) by simp]
    apply sum_div_card_le
    · simp
    · intro x hx
      obtain ⟨y, hy, rfl⟩ := List.mem_map.mp hx
      exact hbound y hy

/-- The elementwise error list of a row-mapped reconstruction is nonempty as
soon as the cloud has a row and that row and its image are nonempty. -/
theorem elemErrors_map_ne (A : Mat) (g : List ℚ → List ℚ) (r0 : List ℚ)
    (rest : List (List ℚ)) (hrows : A.rows = r0 :: rest)
    (hhd : r0.zip (g r0) ≠ []) :
    elemErrors A ⟨A.w, A.rows.map g⟩ ≠ [] := by
  rw [elemErrors_map_form, hrows, List.map_cons, flat2_cons]
  intro hcontra
  rcases List.append_eq_nil.mp hcontra with ⟨h1, _⟩
  exact hhd (List.map_eq_nil_iff.mp h1)

/-! ### Claim C2 (round-trip error bounds) -/

/-- C2 amended: for every nonempty width-3/4 cloud whose values lie in
`[-100, 100]` and whose intensity column (when present) lies in `[0, 1]` —
the `int16` mode's documented intensity input range — the quantize/dequantize
round trip has RMS error below 0.1 in `fp16` mode and below 0.01 in `int16`
mode. -/
theorem claim_C2_amended (A : Mat) (hwf : A.WF) (hw : A.w = 3 ∨ A.w = 4)
    (hne : A.rows ≠ [])
    (hsp : ∀ r ∈ A.rows, ∀ x ∈ r, |x| ≤ 100)
    (hin : ∀ r ∈ A.rows, ∀ x ∈ r.drop 3, 0 ≤ x ∧ x ≤ 1) :
    (∃ q m d stats, quantize_points A "fp16" = .ok (q, m) ∧
       dequantize_points q m = .ok d ∧
       compute_quantization_error A d = .ok stats ∧
       Real.sqrt (stats.msq : ℝ) < 1 / 10) ∧
    (∃ q m d stats, quantize_points A "int16" = .ok (q, m) ∧
       dequantize_points q m = .ok d ∧
       compute_quantization_error A d = .ok stats ∧
       Real.sqrt (stats.msq : ℝ) < 1 / 100) := by
  obtain ⟨w, rows⟩ := A
  obtain ⟨r0, rest, hrows⟩ := List.exists_cons_of_ne_nil hne
  subst hrows
  replace hw : w = 3 ∨ w = 4 := hw
  have hr0 : r0 ∈ r0 :: rest := List.mem_cons_self r0 rest
  have hr0len : r0.length = w := hwf r0 hr0
  have hwge : 3 ≤ w := by rcases hw with h | h <;> omega
  have hr0ne : r0 ≠ [] := by
    intro hc
    rw [hc] at hr0len
    simp at hr0len
    omega
  have hgetD : ∀ r ∈ r0 :: rest, ∀ j, j < 3 → |r.getD j 0| ≤ 100 := by
    intro r hr j hj
    have hrl : r.length = w := hwf r hr
    have hjlt : j < r.length := by omega
    rw [List.getD_eq_getElem r 0 hjlt]
    exact hsp r hr _ (List.getElem_mem hjlt)
  have hmn : ∀ j, j < 3 → -100 ≤ colMin r0 rest j := by
    intro j hj
    apply colMin_ge
    intro r hr
    have := abs_le.mp (hgetD r hr j hj)
    linarith [this.1]
  have hmx : ∀ j, j < 3 → colMax r0 rest j ≤ 100 := by
    intro j hj
    apply colMax_le
    intro r hr
    have := abs_le.mp (hgetD r hr j hj)
    linarith [this.2]
  have hrng200 : ∀ j, j < 3 → sanE (colMax r0 rest j - colMin r0 rest j) ≤ 200 := by
    intro j hj
    have h1 := hmn j hj
    have h2 := hmx j hj
    unfold sanE
    by_cases h0 : colMax r0 rest j - colMin r0 rest j = 0
    · rw [if_pos h0]
      norm_num
    · rw [if_neg h0]
      linarith
  have hsp_bound : ∀ r ∈ r0 :: rest, ∀ j, j < 3 →
      |r.getD j 0 - rt16 (colMin r0 rest j) (colMax r0 rest j) (r.getD j 0)| ≤
        200 / 65534 := by
    intro r hr j hj
    rw [abs_sub_comm]
    unfold rt16
    refine le_trans (q16_roundtrip (colMin r0 rest j) (colMax r0 rest j)
      (r.getD j 0) (colMin_le r0 rest j r hr) (le_colMax r0 rest j r hr)) ?_
    gcongr
    exact hrng200 j hj
  constructor
  · -- fp16 mode
    have herr : ∀ r ∈ r0 :: rest, ∀ p ∈ r.zip (List.map fp16RoundVal r),
        |p.1 - p.2| ≤ 1 / 16 := by
      intro r hr p hp
      rw [zip_self_map] at hp
      obtain ⟨x, hx, rfl⟩ := List.mem_map.mp hp
      rw [abs_sub_comm]
      exact fp16RoundVal_err_of_le (hsp r hr x hx)
    have hneE : elemErrors ⟨w, r0 :: rest⟩
        ⟨w, (r0 :: rest).map (List.map fp16RoundVal)⟩ ≠ [] := by
      apply elemErrors_map_ne _ _ r0 rest rfl
      rw [zip_self_map]
      simp [hr0ne]
    obtain ⟨stats, hstats, hmsq⟩ :=
      cqe_of_map ⟨w, r0 :: rest⟩ (List.map fp16RoundVal) (1 / 16) herr hneE
    refine ⟨_, _, _, stats, rfl, deq_quantize_fp16 ⟨w, r0 :: rest⟩ hsp, hstats, ?_⟩
    rw [Real.sqrt_lt' (by norm_num : (0 : ℝ) < 1 / 10)]
    have hc : ((1 : ℚ) / 16) ^ 2 < (1 / 10 : ℚ) ^ 2 := by norm_num
    have hr2 : ((stats.msq : ℚ) : ℝ) < (((1 : ℚ) / 10) ^ 2 : ℚ) := by
      exact_mod_cast lt_of_le_of_lt hmsq hc
    push_cast at hr2
    nlinarith [hr2]
  · -- int16 mode
    have hintensity : ∀ r ∈ r0 :: rest, w = 4 →
        |r.getD 3 0 - ((qu16 (r.getD 3 0) : ℕ) : ℚ) / 65535| ≤ 200 / 65534 := by
      intro r hr hw4
      have hrl : r.length = 4 := by rw [hwf r hr, hw4]
      have hd3 : r.getD 3 0 ∈ r.drop 3 := by
        have h3lt : 3 < r.length := by omega
        have hdlen : 0 < (r.drop 3).length := by
          rw [List.length_drop]
          omega
        rw [List.getD_eq_getElem r 0 h3lt]
        have heq : r[3] = (r.drop 3)[0] := by
          rw [List.getElem_drop]
        rw [heq]
        exact List.getElem_mem hdlen
      obtain ⟨h0, h1⟩ := hin r hr _ hd3
      rw [abs_sub_comm]
      refine le_trans (qu16_roundtrip (r.getD 3 0) h0 h1) ?_
      norm_num
    rcases hw with hw3 | hw4
    · subst hw3
      obtain ⟨q, m, hq, hd⟩ := roundtrip_int16_w3 r0 rest
      have herr : ∀ r ∈ r0 :: rest, ∀ p ∈ r.zip (rtRow3 r0 rest r),
          |p.1 - p.2| ≤ 200 / 65534 := by
        intro r hr p hp
        have hrl : r.length = 3 := hwf r hr
        obtain ⟨a, b, c, rfl⟩ := List.length_eq_three.mp hrl
        simp only [rtRow3, List.zip_cons_cons, List.zip_nil_right, List.mem_cons,
          List.not_mem_nil, or_false] at hp
        rcases hp with rfl | rfl | rfl
        · exact hsp_bound [a, b, c] hr 0 (by omega)
        · exact hsp_bound [a, b, c] hr 1 (by omega)
        · exact hsp_bound [a, b, c] hr 2 (by omega)
      have hneE : elemErrors ⟨3, r0 :: rest⟩
          ⟨3, (r0 :: rest).map (rtRow3 r0 rest)⟩ ≠ [] := by
        apply elemErrors_map_ne _ _ r0 rest rfl
        obtain ⟨a, b, c, rfl⟩ := List.length_eq_three.mp hr0len
        simp [rtRow3]
      obtain ⟨stats, hstats, hmsq⟩ :=
        cqe_of_map ⟨3, r0 :: rest⟩ (rtRow3 r0 rest) (200 / 65534) herr hneE
      refine ⟨q, m, _, stats, hq, hd, hstats, ?_⟩
      rw [Real.sqrt_lt' (by norm_num : (0 : ℝ) < 1 / 100)]
      have hq2 : (stats.msq : ℚ) ≤ (200 / 65534) ^ 2 := hmsq
      have hc : ((200 : ℚ) / 65534) ^ 2 < (1 / 100) ^ 2 := by norm_num
      have hr2 : ((stats.msq : ℚ) : ℝ) < ((1 : ℚ) / 100 : ℚ) ^ 2 := by
        exact_mod_cast lt_of_le_of_lt hq2 hc
      push_cast at hr2
      nlinarith [hr2]
    · subst hw4
      obtain ⟨q, m, hq, hd⟩ := roundtrip_int16_w4 r0 rest
      have herr : ∀ r ∈ r0 :: rest, ∀ p ∈ r.zip (rtRow4 r0 rest r),
          |p.1 - p.2| ≤ 200 / 65534 := by
        intro r hr p hp
        have hrl : r.length = 4 := hwf r hr
        obtain ⟨a, t, rfl⟩ := List.exists_of_length_succ r hrl
        have htl : t.length = 3 := by simpa using hrl
        obtain ⟨b, c, dd, rfl⟩ := List.length_eq_three.mp htl
        simp only [rtRow4, List.zip_cons_cons, List.zip_nil_right, List.mem_cons,
          List.not_mem_nil, or_false] at hp
        rcases hp with rfl | rfl | rfl | rfl
        · exact hsp_bound (a :: [b, c, dd]) hr 0 (by omega)
        · exact hsp_bound (a :: [b, c, dd]) hr 1 (by omega)
        · exact hsp_bound (a :: [b, c, dd]) hr 2 (by omega)
        · exact hintensity (a :: [b, c, dd]) hr rfl
      have hneE : elemErrors ⟨4, r0 :: rest⟩
          ⟨4, (r0 :: rest).map (rtRow4 r0 rest)⟩ ≠ [] := by
        apply elemErrors_map_ne _ _ r0 rest rfl
        obtain ⟨a, t, rfl⟩ := List.exists_of_length_succ r0 hr0len
        simp [rtRow4]
      obtain ⟨stats, hstats, hmsq⟩ :=
        cqe_of_map ⟨4, r0 :: rest⟩ (rtRow4 r0 rest) (200 / 65534) herr hneE
      refine ⟨q, m, _, stats, hq, hd, hstats, ?_⟩
      rw [Real.sqrt_lt' (by norm_num : (0 : ℝ) < 1 / 100)]
      have hq2 : (stats.msq : ℚ) ≤ (200 / 65534) ^ 2 := hmsq
      have hc : ((200 : ℚ) / 65534) ^ 2 < (1 / 100) ^ 2 := by norm_num
      have hr2 : ((stats.msq : ℚ) : ℝ) < ((1 : ℚ) / 100 : ℚ) ^ 2 := by
        exact_mod_cast lt_of_le_of_lt hq2 hc
      push_cast at hr2
      nlinarith [hr2]

/-- C2 counterexample: the width-4 cloud `[[0, 0, 0, 50]]` has every value in
`[-100, 100]`, yet its intensity 50 lies outside the `[0, 1]` range the
`int16` mode assumes: the round trip clips it to 1, and the RMS error
(`sqrt(2401/4) = 24.5`) is nowhere near the claimed 0.01 bound. -/
theorem claim_C2_cex :
    ∃ q m d stats,
      quantize_points (Mat.mk 4 [[0, 0, 0, 50]]) "int16" = .ok (q, m) ∧
      dequantize_points q m = .ok d ∧
      compute_quantization_error (Mat.mk 4 [[0, 0, 0, 50]]) d = .ok stats ∧
      ¬ Real.sqrt (stats.msq : ℝ) < 1 / 100 := by
  obtain ⟨q, m, hq, hd⟩ := roundtrip_int16_w4 [0, 0, 0, 50] []
  have hcm : ∀ j : Nat, colMin [0, 0, 0, 50] ([] : List (List ℚ)) j =
      ([0, 0, 0, 50] : List ℚ).getD j 0 := by
    intro j
    simp [colMin]
  have hcx : ∀ j : Nat, colMax [0, 0, 0, 50] ([] : List (List ℚ)) j =
      ([0, 0, 0, 50] : List ℚ).getD j 0 := by
    intro j
    simp [colMax]
  have hsan : sanE ((0 : ℚ) - 0) = 1 := by
    rw [sub_self]
    unfold sanE
    rw [if_pos rfl]
  have htr : truncQ (-32767 : ℚ) = -32767 := by
    unfold truncQ
    rw [if_neg (by norm_num), show ((-32767 : ℚ)) = ((-32767 : ℤ) : ℚ) by norm_num,
      Int.ceil_intCast]
  have hq16 : q16 0 1 0 = -32767 := by
    unfold q16
    rw [show (2 * ((0 : ℚ) - 0) / 1 - 1) * 32767 = -32767 by norm_num, htr]
    unfold wrapInt16
    decide
  have hdq16 : dq16 0 1 (-32767) = 0 := by
    unfold dq16
    push_cast
    norm_num
  have hrt : rt16 0 0 0 = 0 := by
    unfold rt16
    rw [hsan, hq16, hdq16]
  have hqu : qu16 50 = 65535 := by
    unfold qu16
    rw [max_eq_left (by norm_num : (0 : ℚ) ≤ 50 * 65535),
      min_eq_right (by norm_num : (65535 : ℚ) ≤ 50 * 65535)]
    unfold truncQ
    rw [if_pos (by norm_num), show ((65535 : ℚ)) = ((65535 : ℤ) : ℚ) by norm_num,
      Int.floor_intCast]
    decide
  have hrow : rtRow4 [0, 0, 0, 50] [] [0, 0, 0, 50] = [0, 0, 0, 1] := by
    unfold rtRow4
    simp only [hcm, hcx, List.getD_cons_zero, List.getD_cons_succ]
    rw [hrt, hqu]
    norm_num
  rw [show ([[0, 0, 0, 50]] : List (List ℚ)).map (rtRow4 [0, 0, 0, 50] []) =
      [[0, 0, 0, 1]] by rw [List.map_cons, List.map_nil, hrow]] at hd
  have hE : elemErrors (Mat.mk 4 [[0, 0, 0, 50]]) (Mat.mk 4 [[0, 0, 0, 1]]) =
      [0, 0, 0, 49] := by
    unfold elemErrors
    simp [flat2]
    norm_num [abs_of_nonneg]
  have hcqe : ∃ stats, compute_quantization_error (Mat.mk 4 [[0, 0, 0, 50]])
      (Mat.mk 4 [[0, 0, 0, 1]]) = .ok stats ∧ stats.msq = 2401 / 4 := by
    unfold compute_quantization_error
    rw [if_neg (by simp [Mat.shape]), hE]
    refine ⟨_, rfl, ?_⟩
    show (([0, 0, 0, 49] : List ℚ).map (fun x => x ^ 2)).sum /
      ((([0, 0, 0, 49] : List ℚ).length : ℚ)) = 2401 / 4
    norm_num
  obtain ⟨stats, hcq, hmsq⟩ := hcqe
  refine ⟨q, m, _, stats, (by exact hq), hd, hcq, ?_⟩
  rw [hmsq, not_lt]
  rw [show (((2401 / 4 : ℚ)) : ℝ) = (49 / 2) ^ 2 by norm_num,
    Real.sqrt_sq (by norm_num : (0 : ℝ) ≤ 49 / 2)]
  norm_num

/-- Witness for C2 (amended) at the concrete in-range cloud `[[0, 0, 0]]`. -/
theorem claim_C2_amended_witness :
    (Mat.mk 3 [[0, 0, 0]]).WF ∧
    ((Mat.mk 3 [[0, 0, 0]]).w = 3 ∨ (Mat.mk 3 [[0, 0, 0]]).w = 4) ∧
    (Mat.mk 3 [[0, 0, 0]]).rows ≠ [] ∧
    (∀ r ∈ (Mat.mk 3 [[0, 0, 0]]).rows, ∀ x ∈ r, |x| ≤ 100) ∧
    (∀ r ∈ (Mat.mk 3 [[0, 0, 0]]).rows, ∀ x ∈ r.drop 3, 0 ≤ x ∧ x ≤ 1) ∧
    ((∃ q m d stats, quantize_points (Mat.mk 3 [[0, 0, 0]]) "fp16" = .ok (q, m) ∧
       dequantize_points q m = .ok d ∧
       compute_quantization_error (Mat.mk 3 [[0, 0, 0]]) d = .ok stats ∧
       Real.sqrt (stats.msq : ℝ) < 1 / 10) ∧
     (∃ q m d stats, quantize_points (Mat.mk 3 [[0, 0, 0]]) "int16" = .ok (q, m) ∧
       dequantize_points q m = .ok d ∧
       compute_quantization_error (Mat.mk 3 [[0, 0, 0]]) d = .ok stats ∧
       Real.sqrt (stats.msq : ℝ) < 1 / 100)) := by
  have h1 : (Mat.mk 3 [[0, 0, 0]]).WF := by decide
  have h2 : (Mat.mk 3 [[0, 0, 0]]).w = 3 ∨ (Mat.mk 3 [[0, 0, 0]]).w = 4 := by decide
  have h3 : (Mat.mk 3 [[0, 0, 0]]).rows ≠ [] := by decide
  have h4 : ∀ r ∈ (Mat.mk 3 [[0, 0, 0]]).rows, ∀ x ∈ r, |x| ≤ 100 := by
    intro r hr x hx
    simp only [List.mem_singleton] at hr
    subst hr
    simp only [List.mem_cons, List.not_mem_nil, or_false] at hx
    rcases hx with rfl | rfl | rfl <;> norm_num
  have h5 : ∀ r ∈ (Mat.mk 3 [[0, 0, 0]]).rows, ∀ x ∈ r.drop 3, 0 ≤ x ∧ x ≤ 1 := by
    intro r hr x hx
    simp only [List.mem_singleton] at hr
    subst hr
    simp at hx
  exact ⟨h1, h2, h3, h4, h5, claim_C2_amended _ h1 h2 h3 h4 h5⟩
